import Mathlib

set_option maxRecDepth 8000

/- Shallow embedding of the harelsp language server core
   (src/main.rs and src/doc.rs).

   Modeling conventions:
   - Rust `&str` / `String` values are modeled as `List Char`
     (the sources only ever scan ASCII text, where byte indices and
     character indices coincide);
   - `HashSet` / `HashMap` collections are modeled as lists, fixing one
     possible iteration order; statements proved below do not depend on
     the particular order beyond what the code guarantees;
   - panics (indexing out of bounds, `unwrap` on `None`, arithmetic
     underflow) are modeled as `Except.error ()`;
   - filesystem paths / URIs are modeled as lists of path components. -/

abbrev Ident := List (List Char)

abbrev Uri := List (List Char)

def wordChar (c : Char) : Bool := c.isAlphanum || c == '_'

def identChar (c : Char) : Bool := c.isAlphanum || c == ':' || c == '_'

/-- Index of the first element satisfying `p` (Rust `Iterator::position` / `str::find` with a char predicate). -/
def findIdxP {α : Type} (p : α → Bool) : List α → Option Nat
  | [] => none
  | a :: t => if p a then some 0 else (findIdxP p t).map (· + 1)

/-- Index of the last element satisfying `p` (Rust `str::rfind` / `Iterator::rposition`). -/
def rposP {α : Type} (p : α → Bool) : List α → Option Nat
  | [] => none
  | a :: t =>
    match rposP p t with
    | some j => some (j + 1)
    | none => if p a then some 0 else none

/-- Index of the first occurrence of `pat` in `hay` (Rust `str::find` with a string pattern). -/
def findSub (hay pat : List Char) : Option Nat :=
  if pat.isPrefixOf hay then some 0
  else
    match hay with
    | [] => none
    | _ :: t => (findSub t pat).map (· + 1)

/-- Rust `str::strip_prefix`. -/
def dropPre (p l : List Char) : Option (List Char) :=
  if p.isPrefixOf l then some (l.drop p.length) else none

/-- Rust `str::trim_end_matches(':')`: remove every trailing `':'`. -/
def trimEndColons (l : List Char) : List Char :=
  ((l.reverse.dropWhile (fun c => c == ':')).reverse)

/-- Rust `str::trim_start`. -/
def trimL (l : List Char) : List Char := l.dropWhile Char.isWhitespace

/-- Rust `str::trim` (both ends). -/
def trimBoth (l : List Char) : List Char :=
  ((trimL l).reverse.dropWhile Char.isWhitespace).reverse

/-- Rust `str::split("::")`: split on each non-overlapping occurrence of `"::"`. -/
def splitSS : List Char → List (List Char)
  | [] => [[]]
  | ':' :: ':' :: rest => [] :: splitSS rest
  | c :: rest =>
    match splitSS rest with
    | h :: t => (c :: h) :: t
    | [] => [[c]]

/-- doc.rs `get_identifier(line, char_idx)`.  Scans left from the offset over
    alphanumeric/`':'`/`'_'` characters and right over alphanumeric/`'_'`
    characters, trims trailing `':'`, and splits on `"::"`.
    Rust slices `line[..i]` / `line[i..]` panic when `char_idx > line.len()`;
    that panic is the `Except.error` case. -/
def get_identifier (line : List Char) (charIdx : Nat) : Except Unit Ident :=
  if charIdx ≤ line.length then
    let i := charIdx
    let start :=
      match rposP (fun c => !(identChar c)) (line.take i) with
      | some j => j + 1
      | none => 0
    let e :=
      match findIdxP (fun c => !(wordChar c)) (line.drop i) with
      | some j => i + j
      | none => line.length
    .ok (splitSS (trimEndColons ((line.take e).drop start)))
  else .error ()

/- ------------------------------------------------------------------ -/
/- Symbols (doc.rs)                                                    -/
/- ------------------------------------------------------------------ -/

inductive HareKind : Type where
  | Ty   -- Rust `HareKind::Type`
  | Fn
  | Def
  | Var
deriving DecidableEq, Repr

structure SrcPos where
  line : Nat
  col : Nat
deriving DecidableEq, Repr

/-- lsp `Range` (start/end positions, here `lo`/`hi`). -/
structure Rng where
  lo : SrcPos
  hi : SrcPos
deriving DecidableEq, Repr

structure HareItem where
  kind : HareKind
  name : List Char
  range : Rng
  exported : Bool
deriving DecidableEq, Repr

/-- doc.rs `PREFIXES`: the fixed, ordered declaration-prefix table. -/
def declTable : List (List Char × Bool × HareKind) :=
  [ ("export type".toList, true, .Ty),
    ("export fn".toList, true, .Fn),
    ("export def".toList, true, .Def),
    ("export let".toList, true, .Var),
    ("export const".toList, true, .Var),
    ("type".toList, false, .Ty),
    ("fn".toList, false, .Fn),
    ("def".toList, false, .Def),
    ("let".toList, false, .Var),
    ("const".toList, false, .Var) ]

def atSymbolTok : List Char := "@symbol".toList

/-- The effective declaration prefix for one table entry on one line
    (doc.rs `parse_items`, the `@symbol` special case):
    if the line contains `"@symbol"`, the table prefix is replaced by the
    slice `line[..prefix.len() + rel_pos_of_rparen]`.
    `unwrap` on a missing `')'` and an out-of-bounds slice are panics. -/
def effPat (line pfx : List Char) : Except Unit (List Char) :=
  match findSub line atSymbolTok with
  | none => .ok pfx
  | some i =>
    match findSub (line.drop i) [')'] with
    | none => .error ()
    | some rp =>
      if pfx.length + rp ≤ line.length then .ok (line.take (pfx.length + rp))
      else .error ()

/-- First alphanumeric/underscore token of the trimmed remainder
    (doc.rs: `s.trim().split(|c| !(c.is_alphanumeric() || c == '_')).next()`). -/
def firstWordTok (s : List Char) : List Char := (trimBoth s).takeWhile wordChar

/-- Processing of one `PREFIXES` entry against one line (one iteration of the
    inner loop of doc.rs `parse_items`). -/
def itemForEntry (ln : Nat) (line : List Char) (e : List Char × Bool × HareKind) :
    Except Unit (Option HareItem) :=
  match effPat line e.1 with
  | .error err => .error err
  | .ok p =>
    match dropPre p line with
    | none => .ok none
    | some s =>
      -- Rust: `name` is the first word of `s.trim()`, `start` the name's
      -- first occurrence after the prefix, i.e. `j + p.length` below.
      match findSub (line.drop p.length) (firstWordTok s) with
      | none => .error ()
      | some j =>
        .ok (some ⟨e.2.2, firstWordTok s,
          ⟨⟨ln, j + p.length⟩, ⟨ln, j + p.length + (firstWordTok s).length⟩⟩, e.2.1⟩)

def goEntries (ln : Nat) (line : List Char) :
    List (List Char × Bool × HareKind) → Except Unit (List HareItem)
  | [] => .ok []
  | e :: t =>
    match itemForEntry ln line e with
    | .error err => .error err
    | .ok o =>
      match goEntries ln line t with
      | .error err => .error err
      | .ok rest => .ok (match o with | some it => it :: rest | none => rest)

def parseLine (ln : Nat) (line : List Char) : Except Unit (List HareItem) :=
  goEntries ln line declTable

def goLines (ln : Nat) : List (List Char) → Except Unit (List HareItem)
  | [] => .ok []
  | l :: t =>
    match parseLine ln l with
    | .error err => .error err
    | .ok hs =>
      match goLines (ln + 1) t with
      | .error err => .error err
      | .ok rest => .ok (hs ++ rest)

/-- doc.rs `parse_items`: scan all lines against the prefix table.
    The Rust `HashSet` result is modeled as the list of produced items
    (duplicate insertions of equal items are harmless at this level). -/
def parse_items (doc_lines : List (List Char)) : Except Unit (List HareItem) :=
  goLines 0 doc_lines

/- ------------------------------------------------------------------ -/
/- Imports (doc.rs)                                                    -/
/- ------------------------------------------------------------------ -/

def useKw : List Char := "use".toList

/-- doc.rs `get_imports`.  For a line starting with `"use"`, the position of
    `';'` is taken; `None` skips the line, while a terminator at position `0`
    makes `end - 1` underflow (`u32`), a panic (`Except.error`). -/
def get_imports : List (List Char) → Except Unit (List Ident)
  | [] => .ok []
  | l :: t =>
    match dropPre useKw l with
    | none => get_imports t
    | some s =>
      match findIdxP (fun c => c == ';') s with
      | none => get_imports t
      | some 0 => .error ()
      | some (j + 1) =>
        match get_identifier s j with
        | .error err => .error err
        | .ok id =>
          match get_imports t with
          | .error err => .error err
          | .ok rest => .ok (id :: rest)

/- ------------------------------------------------------------------ -/
/- Documents (doc.rs)                                                  -/
/- ------------------------------------------------------------------ -/

structure Document where
  lines : List (List Char)
  imports : List Ident
  items : List HareItem
deriving DecidableEq, Repr

/-- doc.rs `Document::new` (also the parsing part of `Document::open`):
    items first, then imports, as in the source. -/
def Document.new (lines : List (List Char)) : Except Unit Document :=
  match parse_items lines with
  | .error err => .error err
  | .ok items =>
    match get_imports lines with
    | .error err => .error err
    | .ok imports => .ok ⟨lines, imports, items⟩

def commentTok : List Char := "//".toList

/-- doc.rs `Document::get_documentation`: scan backward from the item's
    declaration line over `"//"`-prefixed lines; `rposition` finds the last
    non-comment line strictly above the declaration. -/
def get_documentation (d : Document) (it : HareItem) : Option (List Char) :=
  match rposP (fun l => !(commentTok.isPrefixOf l)) (d.lines.take it.range.lo.line) with
  | none => none
  | some start =>
    if start + 1 < it.range.lo.line then
      some ((((d.lines.take it.range.lo.line).drop (start + 1)).map
        (fun l => l.drop 2 ++ ['\n'])).flatten)
    else none

/- ------------------------------------------------------------------ -/
/- Resolution (main.rs)                                                -/
/- ------------------------------------------------------------------ -/

/-- main.rs `resolve_ident`: first import whose last segment equals the
    cursor identifier's first segment qualifies the identifier; otherwise the
    current module name is prepended.  (`ident[1..]` is total here as
    `List.drop`; cursor identifiers are never empty, see
    `get_identifier_ne_nil`.) -/
def resolve_ident (current_module : List Char) (ident : Ident) (imports : List Ident) : Ident :=
  match imports.find? (fun imp => decide (imp.getLast? = ident.head?)) with
  | some imp => imp ++ ident.drop 1
  | none => current_module :: ident

/-- main.rs `module_of_ident`: the second-to-last segment of the resolved
    path (`len().saturating_sub(2)`, `Nat` subtraction saturates likewise). -/
def module_of_ident (ident : Ident) (current_module : List Char) (imports : List Ident) :
    List Char :=
  let r := resolve_ident current_module ident imports
  r.getD (r.length - 2) []

/-- main.rs `find_item`: first item whose name equals the identifier's last
    segment, where non-exported items qualify only for single-segment
    (local) identifiers.  (`ident.last().unwrap()` cannot panic on the
    non-empty cursor identifiers the server produces.) -/
def find_item (items : List HareItem) (ident : Ident) : Option HareItem :=
  let expected := ident.getLast?.getD []
  let lcl := ident.length == 1
  items.find? (fun it => decide (it.name = expected) && (lcl || it.exported))

def haTok : List Char := "ha".toList

def plusTok : List Char := "+".toList

/-- Rust `Path::extension` of a file name: the part after the last `'.'`,
    none when there is no `'.'` or when the name starts with its only `'.'`. -/
def extOf (name : List Char) : Option (List Char) :=
  match rposP (fun c => c == '.') name with
  | none => none
  | some 0 => none
  | some i => some (name.drop (i + 1))

/-- main.rs `module_files` filter condition: the path's extension must be
    `"ha"` and its parent component must equal the module name, or be a
    `"+"`-prefixed (build-tag) component whose own parent equals it. -/
def moduleMatch (u : Uri) (m : List Char) : Bool :=
  match u.reverse with
  | [] => false
  | fname :: rest =>
    if extOf fname ≠ some haTok then false
    else
      match rest with
      | [] => false
      | parn :: rest2 =>
        if parn = m then true
        else if plusTok.isPrefixOf parn then
          match rest2 with
          | [] => false
          | gp :: _ => gp = m
        else false

abbrev DocList := List (Uri × Document)

def lookupA (docs : DocList) (u : Uri) : Option Document :=
  (docs.find? (fun p => decide (p.1 = u))).map (·.2)

/-- main.rs `module_files`: all stored documents belonging to the module. -/
def module_files (docs : DocList) (m : List Char) : DocList :=
  docs.filter (fun p => moduleMatch p.1 m)

/-- main.rs `module_from_uri`: the name of the file's immediate parent
    directory; the Rust `expect`s (root / `..` paths) are the `none` case. -/
def module_from_uri (u : Uri) : Option (List Char) :=
  u.dropLast.getLast?

/- ------------------------------------------------------------------ -/
/- Query engine (main.rs)                                              -/
/- ------------------------------------------------------------------ -/

abbrev Loc := Uri × Rng

inductive GotoDefRes : Type where
  | scalar : Loc → GotoDefRes
  | array : List Loc → GotoDefRes
deriving DecidableEq, Repr

/-- The location collection of main.rs `find_definition`: one location per
    candidate document whose `find_item` lookup succeeds. -/
def candidateLocs (docs : DocList) (ident : Ident) (m : List Char) : List Loc :=
  (module_files docs m).filterMap
    (fun p => (find_item p.2.items ident).map (fun it => (p.1, it.range)))

/-- The final step of main.rs `find_definition`: exactly one collected
    location (`locations.len() == 1`) is returned as a scalar result, any
    other count as an array (including the empty one). -/
def dispatchLocs (locs : List Loc) : GotoDefRes :=
  match locs with
  | [loc] => .scalar loc
  | _ => .array locs

/-- main.rs `find_definition`.  The current module is derived first (its
    `expect`s are panics); a missing document or an out-of-range line leaves
    the location list empty; `lines.get` guards the line access. -/
def find_definition (docs : DocList) (uri : Uri) (lineNo col : Nat) :
    Except Unit GotoDefRes :=
  match module_from_uri uri with
  | none => .error ()
  | some dm =>
    match lookupA docs uri with
    | none => .ok (dispatchLocs [])
    | some d =>
      match d.lines.get? lineNo with
      | none => .ok (dispatchLocs [])
      | some l =>
        match get_identifier l col with
        | .error err => .error err
        | .ok ident =>
          .ok (dispatchLocs (candidateLocs docs ident (module_of_ident ident dm d.imports)))

/-- The loop of main.rs `generate_hover`: the first candidate document whose
    `find_item` succeeds determines the answer (its documentation, which may
    itself be absent), and the remaining candidates are not consulted. -/
def firstHover : DocList → Ident → Option (List Char × Rng)
  | [], _ => none
  | (_, md) :: t, ident =>
    match find_item md.items ident with
    | some it => (get_documentation md it).map (fun s => (s, it.range))
    | none => firstHover t ident

/-- main.rs `generate_hover`.  Unlike `find_definition`, the cursor line is
    read with `lines[loc.line as usize]`, an unguarded index: an
    out-of-range line number is a panic (`Except.error`). -/
def generate_hover (docs : DocList) (uri : Uri) (lineNo col : Nat) :
    Except Unit (Option (List Char × Rng)) :=
  match module_from_uri uri with
  | none => .error ()
  | some dm =>
    match lookupA docs uri with
    | none => .ok none
    | some d =>
      match d.lines.get? lineNo with
      | none => .error ()
      | some l =>
        match get_identifier l col with
        | .error err => .error err
        | .ok ident =>
          .ok (firstHover (module_files docs (module_of_ident ident dm d.imports)) ident)

/-- main.rs `generate_completions`.  Also indexes `lines[loc.line as usize]`
    unguarded: an out-of-range line number is a panic (`Except.error`).
    Every item of every document of the target module is offered. -/
def generate_completions (docs : DocList) (uri : Uri) (lineNo col : Nat) :
    Except Unit (List (List Char × HareKind × Option (List Char))) :=
  match module_from_uri uri with
  | none => .error ()
  | some dm =>
    match lookupA docs uri with
    | none => .ok []
    | some d =>
      match d.lines.get? lineNo with
      | none => .error ()
      | some l =>
        match get_identifier l col with
        | .error err => .error err
        | .ok ident =>
          .ok (((module_files docs (module_of_ident ident dm d.imports)).map
                 (fun p => p.2.items.map
                   (fun it => (it.name, it.kind, get_documentation p.2 it)))).flatten)

/- ------------------------------------------------------------------ -/
/- Directory indexer (main.rs `add_docs_from_directory`)               -/
/- ------------------------------------------------------------------ -/

/-- A directory entry: a source file (name, text lines) or a subdirectory
    (name, entries).  Modeled directories are readable; I/O failures, which
    the Rust code logs and skips, are not represented. -/
inductive FsEntry : Type where
  | file : List Char → List (List Char) → FsEntry
  | dir : List Char → List FsEntry → FsEntry

/-- Rust `HashMap::insert`, on the association-list model of the store:
    replaces any existing binding of the key. -/
def insertD (u : Uri) (d : Document) (docs : DocList) : DocList :=
  (u, d) :: docs.filter (fun p => !(decide (p.1 = u)))

mutual

/-- One loop iteration of main.rs `add_docs_from_directory`: a `.ha` file is
    opened, parsed and inserted unconditionally; a `"+"`-prefixed
    subdirectory is recursed into; anything else is skipped. -/
def addEntry (docs : DocList) (path : Uri) : FsEntry → Except Unit DocList
  | .file name content =>
    if extOf name = some haTok then
      match Document.new content with
      | .ok d => .ok (insertD (path ++ [name]) d docs)
      | .error err => .error err
    else .ok docs
  | .dir name entries =>
    if plusTok.isPrefixOf name then addDir docs (path ++ [name]) entries
    else .ok docs

/-- main.rs `add_docs_from_directory` over a directory's entry list. -/
def addDir (docs : DocList) (path : Uri) : List FsEntry → Except Unit DocList
  | [] => .ok docs
  | e :: t =>
    match addEntry docs path e with
    | .ok docs2 => addDir docs2 path t
    | .error err => .error err

end

/- ------------------------------------------------------------------ -/
/- Supporting lemmas                                                   -/
/- ------------------------------------------------------------------ -/

theorem find?_of_exists {α : Type} (p : α → Bool) (l : List α) (h : ∃ x ∈ l, p x = true) :
    ∃ a, l.find? p = some a ∧ a ∈ l ∧ p a = true := by
  induction l with
  | nil => simp at h
  | cons x t ih =>
    by_cases hx : p x
    · exact ⟨x, by simp [List.find?_cons, hx], by simp, hx⟩
    · obtain ⟨y, hy, hpy⟩ := h
      rcases List.mem_cons.mp hy with rfl | hyt
      · exact absurd hpy hx
      · obtain ⟨a, hf, ha, hpa⟩ := ih ⟨y, hyt, hpy⟩
        refine ⟨a, ?_, List.mem_cons_of_mem _ ha, hpa⟩
        simpa [List.find?_cons, hx] using hf

theorem splitSS_ne_nil (l : List Char) : splitSS l ≠ [] := by
  rw [splitSS.eq_def]
  split
  · simp
  · simp
  · split <;> simp

/-- Cursor identifiers are never empty: `get_identifier` splits a substring,
    and a split always yields at least one (possibly empty) segment. -/
theorem get_identifier_ne_nil (line : List Char) (i : Nat) (id : Ident)
    (h : get_identifier line i = .ok id) : id ≠ [] := by
  unfold get_identifier at h
  split at h
  · simp only [Except.ok.injEq] at h
    exact h ▸ splitSS_ne_nil _
  · cases h

/- ------------------------------------------------------------------ -/
/- C2: module resolution laws                                          -/
/- ------------------------------------------------------------------ -/

/-- C2 (confirmed): for a non-empty cursor identifier, if some import's last
    segment equals the identifier's first segment then the resolved path is
    that import's full segment sequence followed by the identifier's
    remaining segments; otherwise the resolved path is the current module
    name prepended to the full identifier. -/
theorem resolve_ident_correct (cm : List Char) (ident : Ident) (imports : List Ident)
    (h : ident ≠ []) :
    ((∃ imp ∈ imports, imp.getLast? = ident.head?) →
      ∃ imp ∈ imports, imp.getLast? = ident.head? ∧
        resolve_ident cm ident imports = imp ++ ident.drop 1) ∧
    ((∀ imp ∈ imports, imp.getLast? ≠ ident.head?) →
      resolve_ident cm ident imports = cm :: ident) := by
  constructor
  · intro hex
    obtain ⟨imp, him, hp⟩ := hex
    obtain ⟨a, hf, ha, hpa⟩ :=
      find?_of_exists (fun imp => decide (imp.getLast? = ident.head?)) imports
        ⟨imp, him, by simpa using hp⟩
    refine ⟨a, ha, by simpa using hpa, ?_⟩
    unfold resolve_ident
    rw [hf]
  · intro hall
    unfold resolve_ident
    have hf : imports.find? (fun imp => decide (imp.getLast? = ident.head?)) = none := by
      rw [List.find?_eq_none]
      intro x hx
      simpa using hall x hx
    rw [hf]

/-- C2 witness: `println` in a file importing `fmt::println` resolves to
    `fmt::println`; with no imports it resolves to `mymod::println`. -/
theorem resolve_ident_correct_witness :
    resolve_ident "mymod".toList ["println".toList] [["fmt".toList, "println".toList]] =
      ["fmt".toList, "println".toList] ∧
    resolve_ident "mymod".toList ["println".toList] [] =
      ["mymod".toList, "println".toList] := by
  have h1 := (resolve_ident_correct "mymod".toList ["println".toList]
    [["fmt".toList, "println".toList]] (by decide)).1
    ⟨["fmt".toList, "println".toList], by decide, by decide⟩
  have h2 := (resolve_ident_correct "mymod".toList ["println".toList] []
    (by decide)).2 (by intro imp him; cases him)
  constructor
  · obtain ⟨imp, him, _, heq⟩ := h1
    rcases List.mem_singleton.mp him with rfl
    exact heq
  · exact h2

/- ------------------------------------------------------------------ -/
/- C6: visibility rule in find_item                                    -/
/- ------------------------------------------------------------------ -/

/-- C6 (confirmed): a returned item's name equals the identifier's last
    segment and non-exported items are only returned for single-segment
    identifiers; conversely, whenever the candidate set contains an item with
    the matching name that is exported or the identifier is a single
    unqualified segment, the lookup succeeds. -/
theorem find_item_visibility (items : List HareItem) (ident : Ident) (h : ident ≠ []) :
    (∀ it, find_item items ident = some it →
      it.name = ident.getLast?.getD [] ∧ (ident.length = 1 ∨ it.exported = true)) ∧
    ((∃ it ∈ items, it.name = ident.getLast?.getD [] ∧
        (ident.length = 1 ∨ it.exported = true)) →
      (find_item items ident).isSome) := by
  constructor
  · intro it hit
    unfold find_item at hit
    have hp := List.find?_some hit
    simp only [Bool.and_eq_true, decide_eq_true_eq, Bool.or_eq_true, beq_iff_eq] at hp
    exact ⟨hp.1, hp.2.imp id (fun e => e)⟩
  · intro hex
    obtain ⟨it, hmem, hname, hvis⟩ := hex
    obtain ⟨a, hf, _, _⟩ :=
      find?_of_exists
        (fun it => decide (it.name = ident.getLast?.getD []) &&
          ((ident.length == 1) || it.exported)) items
        ⟨it, hmem, by
          simp only [Bool.and_eq_true, decide_eq_true_eq, Bool.or_eq_true, beq_iff_eq]
          exact ⟨hname, hvis.imp id (fun e => e)⟩⟩
    unfold find_item
    rw [hf]
    rfl

/-- C6 witness: a single-segment identifier finds a non-exported item, and
    the item a two-segment identifier returns has the matching name and is
    exported. -/
theorem find_item_visibility_witness :
    (find_item [⟨.Fn, "foo".toList, ⟨⟨0, 3⟩, ⟨0, 6⟩⟩, false⟩] ["foo".toList]).isSome ∧
    ((⟨.Fn, "foo".toList, ⟨⟨1, 3⟩, ⟨1, 6⟩⟩, true⟩ : HareItem).name =
        (["mod".toList, "foo".toList] : Ident).getLast?.getD [] ∧
      ((["mod".toList, "foo".toList] : Ident).length = 1 ∨
        (⟨.Fn, "foo".toList, ⟨⟨1, 3⟩, ⟨1, 6⟩⟩, true⟩ : HareItem).exported = true)) := by
  constructor
  · exact (find_item_visibility [⟨.Fn, "foo".toList, ⟨⟨0, 3⟩, ⟨0, 6⟩⟩, false⟩]
      ["foo".toList] (by decide)).2
      ⟨⟨.Fn, "foo".toList, ⟨⟨0, 3⟩, ⟨0, 6⟩⟩, false⟩, by decide, by decide, Or.inl (by decide)⟩
  · exact (find_item_visibility
      [⟨.Fn, "foo".toList, ⟨⟨0, 3⟩, ⟨0, 6⟩⟩, false⟩,
       ⟨.Fn, "foo".toList, ⟨⟨1, 3⟩, ⟨1, 6⟩⟩, true⟩]
      ["mod".toList, "foo".toList] (by decide)).1
      ⟨.Fn, "foo".toList, ⟨⟨1, 3⟩, ⟨1, 6⟩⟩, true⟩ (by decide)

/- ------------------------------------------------------------------ -/
/- C9: "use;" makes import extraction panic                            -/
/- ------------------------------------------------------------------ -/

/-- C9 (confirmed): any line that starts with the import keyword and whose
    statement terminator `';'` is the very first character of the remainder
    (e.g. `"use;"`) makes `get_imports` fail with the `end - 1` underflow
    panic, instead of skipping the line or producing an import. -/
theorem get_imports_use_semicolon_panics (lines : List (List Char)) (l : List Char)
    (hmem : l ∈ lines) (hpre : useKw.isPrefixOf l = true)
    (hsemi : (l.drop 3).head? = some ';') :
    get_imports lines = .error () := by
  induction lines with
  | nil => cases hmem
  | cons x t ih =>
    rcases List.mem_cons.mp hmem with rfl | hmt
    · obtain ⟨rest, hrest⟩ : ∃ rest, l.drop 3 = ';' :: rest := by
        cases hd : l.drop 3 with
        | nil => rw [hd] at hsemi; cases hsemi
        | cons c r =>
          rw [hd] at hsemi
          simp only [List.head?_cons, Option.some.injEq] at hsemi
          exact ⟨r, by rw [hsemi]⟩
      have hdp : dropPre useKw l = some (';' :: rest) := by
        unfold dropPre
        rw [if_pos hpre]
        exact congrArg some hrest
      unfold get_imports
      rw [hdp]
      rfl
    · have herr := ih hmt
      unfold get_imports
      split
      · exact herr
      · split
        · exact herr
        · rfl
        · split
          · rfl
          · rw [herr]

/-- C9 witness: the single line `"use;"` makes import extraction fail. -/
theorem get_imports_use_semicolon_panics_witness :
    get_imports ["use;".toList] = .error () :=
  get_imports_use_semicolon_panics ["use;".toList] "use;".toList
    (by decide) (by decide) (by decide)

/- ------------------------------------------------------------------ -/
/- C4: out-of-range query positions                                    -/
/- ------------------------------------------------------------------ -/

def docOneLine : Document := ⟨["fn a() = 0;".toList], [], []⟩

def uriOne : Uri := ["m".toList, "a.ha".toList]

/-- C4 (code bug): on a stored one-line document, a hover or completion
    query at line 5 hits the unguarded `lines[loc.line as usize]` index and
    panics, contradicting the documented empty/no-op contract; only the
    definition query guards the line access and returns the empty result. -/
theorem queries_out_of_range_eval :
    generate_hover [(uriOne, docOneLine)] uriOne 5 0 = .error () ∧
    generate_completions [(uriOne, docOneLine)] uriOne 5 0 = .error () ∧
    find_definition [(uriOne, docOneLine)] uriOne 5 0 = .ok (GotoDefRes.array []) :=
  ⟨rfl, rfl, rfl⟩

/- ------------------------------------------------------------------ -/
/- rposP lemmas                                                        -/
/- ------------------------------------------------------------------ -/

theorem rposP_cons_some {α : Type} (p : α → Bool) (x : α) (t : List α) (j : Nat)
    (h : rposP p t = some j) : rposP p (x :: t) = some (j + 1) := by
  unfold rposP
  rw [h]

theorem rposP_cons_none_pos {α : Type} (p : α → Bool) (x : α) (t : List α)
    (ht : rposP p t = none) (hx : p x = true) : rposP p (x :: t) = some 0 := by
  unfold rposP
  rw [ht]
  simp [hx]

theorem rposP_cons_none_neg {α : Type} (p : α → Bool) (x : α) (t : List α)
    (ht : rposP p t = none) (hx : p x = false) : rposP p (x :: t) = none := by
  unfold rposP
  rw [ht]
  simp [hx]

theorem rposP_eq_none_iff {α : Type} (p : α → Bool) (l : List α) :
    rposP p l = none ↔ ∀ a ∈ l, p a = false := by
  induction l with
  | nil => simp [rposP]
  | cons x t ih =>
    constructor
    · intro h
      cases ht : rposP p t with
      | some j => rw [rposP_cons_some p x t j ht] at h; cases h
      | none =>
        by_cases hx : p x
        · rw [rposP_cons_none_pos p x t ht hx] at h; cases h
        · intro a ha
          rcases List.mem_cons.mp ha with rfl | hat
          · exact Bool.eq_false_iff.mpr hx
          · exact (ih.mp ht) a hat
    · intro hall
      have ht : rposP p t = none :=
        ih.mpr (fun a ha => hall a (List.mem_cons_of_mem _ ha))
      exact rposP_cons_none_neg p x t ht (hall x (List.mem_cons_self x t))

theorem rposP_eq_some_of {α : Type} (p : α → Bool) (l : List α) : ∀ (j : Nat) (a : α),
    l.get? j = some a → p a = true →
    (∀ k b, j < k → l.get? k = some b → p b = false) →
    rposP p l = some j := by
  induction l with
  | nil => intro j a h; cases h
  | cons x t ih =>
    intro j a hget hpa hafter
    cases j with
    | zero =>
      have hax : x = a := by simpa using hget
      have htnone : rposP p t = none := by
        rw [rposP_eq_none_iff]
        intro b hb
        obtain ⟨n, hn⟩ := List.get?_of_mem hb
        exact hafter (n + 1) b (Nat.succ_pos n) (by simpa using hn)
      exact rposP_cons_none_pos p x t htnone (hax ▸ hpa)
    | succ j' =>
      have ht : rposP p t = some j' :=
        ih j' a (by simpa using hget) hpa
          (fun k b hk hkb => hafter (k + 1) b (Nat.succ_lt_succ hk) (by simpa using hkb))
      exact rposP_cons_some p x t j' ht

/- ------------------------------------------------------------------ -/
/- C3: directory → module-name mapping                                 -/
/- ------------------------------------------------------------------ -/

/-- C3 counterexample: for `unix/+linux/open.ha`, `module_from_uri` returns
    the immediate parent `"+linux"` — the build-tag exception is not applied
    when deriving the current file's own module name. -/
theorem module_from_uri_buildtag_counterexample :
    module_from_uri ["unix".toList, "+linux".toList, "open.ha".toList] =
      some "+linux".toList ∧
    some "+linux".toList ≠ (some "unix".toList : Option (List Char)) := by
  exact ⟨rfl, by decide⟩

/-- C3 (amended): `module_from_uri` always returns the immediate parent
    directory's name, even when it is a build-tag directory; the build-tag
    exception is applied only when grouping stored documents into modules
    (`module_files`), where a `.ha` file under `m/+tag/` is matched by
    module `m`. -/
theorem module_mapping_amended :
    (∀ (base : List (List Char)) (tag fname : List Char),
      module_from_uri (base ++ [tag, fname]) = some tag) ∧
    (∀ (docs : DocList) (base : List (List Char)) (m fname : List Char) (d : Document),
      extOf fname = some haTok →
      (base ++ [m, fname], d) ∈ docs →
      (base ++ [m, fname], d) ∈ module_files docs m) ∧
    (∀ (docs : DocList) (base : List (List Char)) (m tag fname : List Char) (d : Document),
      plusTok.isPrefixOf tag = true →
      extOf fname = some haTok →
      (base ++ [m, tag, fname], d) ∈ docs →
      (base ++ [m, tag, fname], d) ∈ module_files docs m) := by
  refine ⟨?_, ?_, ?_⟩
  · intro base tag fname
    unfold module_from_uri
    rw [show base ++ [tag, fname] = (base ++ [tag]) ++ [fname] by simp]
    rw [List.dropLast_concat]
    exact List.getLast?_concat base
  · intro docs base m fname d hext hmem
    refine List.mem_filter.mpr ⟨hmem, ?_⟩
    have hrev : (base ++ [m, fname]).reverse = fname :: m :: base.reverse := by simp
    unfold moduleMatch
    rw [hrev]
    simp [hext]
  · intro docs base m tag fname d hplus hext hmem
    refine List.mem_filter.mpr ⟨hmem, ?_⟩
    have hrev : (base ++ [m, tag, fname]).reverse = fname :: tag :: m :: base.reverse := by
      simp
    unfold moduleMatch
    rw [hrev]
    by_cases htm : tag = m <;> simp [hext, htm, hplus]

def docOpenHa : Document :=
  ⟨["export fn open(path: str) = void;".toList], [], []⟩

/-- C3 witness: the stored file `unix/+linux/open.ha` is matched by module
    `"unix"` when grouping, and its own derived module name is `"+linux"`. -/
theorem module_mapping_amended_witness :
    module_from_uri (([] : List (List Char)) ++ ["+linux".toList, "open.ha".toList]) =
      some "+linux".toList ∧
    ((([] : List (List Char)) ++ ["unix".toList, "+linux".toList, "open.ha".toList],
        docOpenHa) ∈
      module_files
        [(["unix".toList, "+linux".toList, "open.ha".toList], docOpenHa)]
        "unix".toList) := by
  constructor
  · exact module_mapping_amended.1 [] "+linux".toList "open.ha".toList
  · exact module_mapping_amended.2.2
      [(["unix".toList, "+linux".toList, "open.ha".toList], docOpenHa)]
      [] "unix".toList "+linux".toList "open.ha".toList docOpenHa
      (by decide) (by decide) (by simp)

/- ------------------------------------------------------------------ -/
/- C5: hover documentation extraction                                  -/
/- ------------------------------------------------------------------ -/

def docC5 : Document :=
  ⟨["// docs".toList, "fn foo() = void;".toList], [],
   [⟨.Fn, "foo".toList, ⟨⟨1, 3⟩, ⟨1, 6⟩⟩, false⟩]⟩

/-- C5 counterexample: for a declaration on line 1 whose comment run extends
    to the top of the file (line 0 is a comment), the run is non-empty, yet
    `get_documentation` returns no documentation: the backward `rposition`
    for a non-comment line finds nothing and the `?` operator bails out. -/
theorem get_documentation_top_counterexample :
    Document.new ["// docs".toList, "fn foo() = void;".toList] = .ok docC5 ∧
    (⟨.Fn, "foo".toList, ⟨⟨1, 3⟩, ⟨1, 6⟩⟩, false⟩ : HareItem) ∈ docC5.items ∧
    commentTok.isPrefixOf ("// docs".toList) = true ∧
    get_documentation docC5 ⟨.Fn, "foo".toList, ⟨⟨1, 3⟩, ⟨1, 6⟩⟩, false⟩ = none := by
  exact ⟨rfl, by decide, rfl, rfl⟩

/-- C5 (amended): documentation is the contiguous run of comment lines
    immediately above the declaration, but only when the run is terminated
    below the top of file by a non-comment line: (1) if every line above the
    declaration is a comment (the run reaches line 0) there is no
    documentation; (2) if the line immediately above is not a comment
    (empty run) there is no documentation; (3) if some line `j` above is not
    a comment, every line strictly between `j` and the declaration is a
    comment, and that run is non-empty, the documentation is those run
    lines with their first two characters stripped, each followed by a
    newline, joined in order. -/
theorem get_documentation_amended (d : Document) (it : HareItem) :
    ((∀ l ∈ d.lines.take it.range.lo.line, commentTok.isPrefixOf l = true) →
      get_documentation d it = none) ∧
    (∀ lprev, 1 ≤ it.range.lo.line →
      (d.lines.take it.range.lo.line).get? (it.range.lo.line - 1) = some lprev →
      commentTok.isPrefixOf lprev = false →
      get_documentation d it = none) ∧
    (∀ j lj, j + 1 < it.range.lo.line →
      (d.lines.take it.range.lo.line).get? j = some lj →
      commentTok.isPrefixOf lj = false →
      (∀ k lk, j < k → (d.lines.take it.range.lo.line).get? k = some lk →
        commentTok.isPrefixOf lk = true) →
      get_documentation d it =
        some ((((d.lines.take it.range.lo.line).drop (j + 1)).map
          (fun l => l.drop 2 ++ ['\n'])).flatten)) := by
  refine ⟨?_, ?_, ?_⟩
  · intro hall
    have hrpos : rposP (fun l => !(commentTok.isPrefixOf l))
        (d.lines.take it.range.lo.line) = none := by
      rw [rposP_eq_none_iff]
      intro a ha
      rw [hall a ha]
      rfl
    unfold get_documentation
    rw [hrpos]
  · intro lprev h1 hget hnc
    have hrpos : rposP (fun l => !(commentTok.isPrefixOf l))
        (d.lines.take it.range.lo.line) = some (it.range.lo.line - 1) := by
      apply rposP_eq_some_of _ _ _ lprev hget (by rw [hnc]; rfl)
      intro k b hk hkb
      have hklt : k < (d.lines.take it.range.lo.line).length :=
        List.get?_eq_some.mp hkb |>.1
      have : k < it.range.lo.line := lt_of_lt_of_le hklt (by
        rw [List.length_take]; exact min_le_left _ _)
      omega
    unfold get_documentation
    rw [hrpos]
    show (if (it.range.lo.line - 1) + 1 < it.range.lo.line then
        some ((((d.lines.take it.range.lo.line).drop ((it.range.lo.line - 1) + 1)).map
          (fun l => l.drop 2 ++ ['\n'])).flatten)
      else none) = none
    rw [if_neg (by omega)]
  · intro j lj hj hget hnc hrun
    have hrpos : rposP (fun l => !(commentTok.isPrefixOf l))
        (d.lines.take it.range.lo.line) = some j := by
      apply rposP_eq_some_of _ _ _ lj hget (by rw [hnc]; rfl)
      intro k b hk hkb
      rw [hrun k b hk hkb]
      rfl
    unfold get_documentation
    rw [hrpos]
    show (if j + 1 < it.range.lo.line then
        some ((((d.lines.take it.range.lo.line).drop (j + 1)).map
          (fun l => l.drop 2 ++ ['\n'])).flatten)
      else none) = _
    rw [if_pos hj]

def docC5w : Document :=
  ⟨["x".toList, "// d".toList, "fn f() = 0;".toList], [],
   [⟨.Fn, "f".toList, ⟨⟨2, 3⟩, ⟨2, 4⟩⟩, false⟩]⟩

/-- C5 witness: a one-line comment run above line 2, terminated by a
    non-comment line 0, yields the stripped joined documentation `" d\n"`. -/
theorem get_documentation_amended_witness :
    get_documentation docC5w ⟨.Fn, "f".toList, ⟨⟨2, 3⟩, ⟨2, 4⟩⟩, false⟩ =
      some " d\n".toList := by
  have h := (get_documentation_amended docC5w
    ⟨.Fn, "f".toList, ⟨⟨2, 3⟩, ⟨2, 4⟩⟩, false⟩).2.2 0 "x".toList
    (by decide) (by decide) (by decide)
    (by
      intro k lk hk hget
      match k, hk with
      | 1, _ =>
        have h1 : lk = "// d".toList := by
          have h2 : some lk = some ("// d".toList) := by rw [← hget]; decide
          exact Option.some.inj h2
        rw [h1]
        decide
      | (n + 2), _ =>
        have hnone : ((docC5w.lines.take 2).get? (n + 2)) = none := by
          rw [List.get?_eq_none]
          simp [docC5w]
        rw [hnone] at hget
        cases hget)
  rw [h]
  rfl

/- ------------------------------------------------------------------ -/
/- findSub lemmas                                                      -/
/- ------------------------------------------------------------------ -/

theorem findSub_of_isPrefixOf (hay pat : List Char) (h : pat.isPrefixOf hay = true) :
    findSub hay pat = some 0 := by
  unfold findSub
  rw [if_pos h]

theorem findSub_cons_not_pre (c : Char) (t pat : List Char)
    (h : pat.isPrefixOf (c :: t) = false) :
    findSub (c :: t) pat = (findSub t pat).map (· + 1) := by
  conv_lhs => rw [findSub.eq_def]
  rw [if_neg (by rw [h]; exact Bool.false_ne_true)]

/-- At the returned index, the pattern can be read back out of the haystack. -/
theorem findSub_some_take (pat : List Char) : ∀ (hay : List Char) (i : Nat),
    findSub hay pat = some i → (hay.drop i).take pat.length = pat := by
  intro hay
  induction hay with
  | nil =>
    intro i h
    unfold findSub at h
    by_cases hp : pat.isPrefixOf [] = true
    · rw [if_pos hp] at h
      have : pat = [] := by
        cases pat with
        | nil => rfl
        | cons a b => cases hp
      simp [this] at h ⊢
    · rw [if_neg (by simpa using hp)] at h
      cases h
  | cons c t ih =>
    intro i h
    by_cases hp : pat.isPrefixOf (c :: t) = true
    · rw [findSub_of_isPrefixOf _ _ hp] at h
      have hi : i = 0 := by simpa using h.symm
      subst hi
      have hpre : pat <+: (c :: t) := List.isPrefixOf_iff_prefix.mp hp
      rw [List.prefix_iff_eq_take.mp hpre]
      simp
    · rw [findSub_cons_not_pre c t pat (Bool.eq_false_iff.mpr hp)] at h
      cases hf : findSub t pat with
      | none => rw [hf] at h; cases h
      | some i' =>
        rw [hf] at h
        have hi : i = i' + 1 := by simpa using h.symm
        subst hi
        simpa using ih i' hf

/-- A pattern that occurs inside the haystack is found. -/
theorem findSub_isSome_of_occurs (pat : List Char) : ∀ hay : List Char,
    pat <:+: hay → ∃ i, findSub hay pat = some i := by
  intro hay
  induction hay with
  | nil =>
    intro hinf
    have : pat = [] := List.eq_nil_of_infix_nil hinf
    exact ⟨0, findSub_of_isPrefixOf _ _ (by simp [this, List.isPrefixOf])⟩
  | cons c t ih =>
    intro hinf
    by_cases hp : pat.isPrefixOf (c :: t) = true
    · exact ⟨0, findSub_of_isPrefixOf _ _ hp⟩
    · have hnp : ¬ pat <+: (c :: t) := fun hpre =>
        hp (List.isPrefixOf_iff_prefix.mpr hpre)
      have ht : pat <:+: t := by
        rcases (List.infix_cons_iff.mp hinf) with hpre | htl
        · exact absurd hpre hnp
        · exact htl
      obtain ⟨i', hi'⟩ := ih ht
      exact ⟨i' + 1, by rw [findSub_cons_not_pre c t pat (Bool.eq_false_iff.mpr hp), hi']; rfl⟩

/-- The extracted first word token occurs inside the scanned remainder. -/
theorem firstWordTok_occurs (s : List Char) : firstWordTok s <:+: s := by
  have h1 : firstWordTok s <+: trimBoth s := List.takeWhile_prefix _
  have h2 : trimBoth s <+: trimL s := by
    unfold trimBoth
    have hdw : (trimL s).reverse.dropWhile Char.isWhitespace <:+ (trimL s).reverse :=
      List.dropWhile_suffix _
    have := List.reverse_prefix.mpr hdw
    simpa using this
  have h3 : trimL s <:+ s := List.dropWhile_suffix _
  exact List.IsInfix.trans (List.IsPrefix.isInfix (h1.trans h2)) h3.isInfix

/-- Stripping a take-prefix always succeeds and leaves the drop. -/
theorem dropPre_take (l : List Char) (k : Nat) (hk : k ≤ l.length) :
    dropPre (l.take k) l = some (l.drop k) := by
  unfold dropPre
  rw [if_pos (List.isPrefixOf_iff_prefix.mpr (List.take_prefix k l))]
  rw [List.length_take, Nat.min_eq_left hk]

/- ------------------------------------------------------------------ -/
/- C8: symbol range round-trip                                         -/
/- ------------------------------------------------------------------ -/

/-- Minimality of `findSub`: the returned index is the FIRST occurrence of
    the pattern — no smaller index carries it. -/
theorem findSub_min (pat : List Char) : ∀ (hay : List Char) (i : Nat),
    findSub hay pat = some i →
    ∀ i2, pat.isPrefixOf (hay.drop i2) = true → i ≤ i2 := by
  intro hay
  induction hay with
  | nil =>
    intro i h i2 h2
    unfold findSub at h
    by_cases hp : pat.isPrefixOf [] = true
    · rw [if_pos hp] at h
      injection h with h'
      omega
    · rw [if_neg hp] at h
      cases h
  | cons c t ih =>
    intro i h i2 h2
    by_cases hp : pat.isPrefixOf (c :: t) = true
    · rw [findSub_of_isPrefixOf _ _ hp] at h
      injection h with h'
      omega
    · rw [findSub_cons_not_pre c t pat (Bool.eq_false_iff.mpr hp)] at h
      cases hf : findSub t pat with
      | none => rw [hf] at h; cases h
      | some i' =>
        rw [hf] at h
        simp only [Option.map_some'] at h
        injection h with h'
        cases i2 with
        | zero =>
          rw [List.drop_zero] at h2
          exact absurd h2 hp
        | succ i2' =>
          have := ih i' hf i2' (by simpa using h2)
          omega

/-- What symbol extraction guarantees for one produced item relative to the
    table entry `e` that matched its line: the kind and exported flag come
    from `e`; the effective prefix `pfx` (the table prefix, or its `@symbol`
    slice replacement) strips off the line; the name is the first word of
    the remainder; the start column is `pfx.length` plus the FIRST occurrence
    of the name after the prefix (minimality stated explicitly); and the
    name reads back out of the range's columns. -/
def itemLineSpec (ln : Nat) (line : List Char) (e : List Char × Bool × HareKind)
    (it : HareItem) : Prop :=
  it.range.lo.line = ln ∧ it.range.hi.line = ln ∧
  it.range.hi.col = it.range.lo.col + it.name.length ∧
  it.kind = e.2.2 ∧ it.exported = e.2.1 ∧
  (line.drop it.range.lo.col).take it.name.length = it.name ∧
  ∃ pfx s, effPat line e.1 = .ok pfx ∧ dropPre pfx line = some s ∧
    it.name = firstWordTok s ∧ pfx.length ≤ it.range.lo.col ∧
    findSub (line.drop pfx.length) it.name = some (it.range.lo.col - pfx.length) ∧
    ∀ i2, it.name.isPrefixOf ((line.drop pfx.length).drop i2) = true →
      it.range.lo.col - pfx.length ≤ i2

theorem itemForEntry_roundtrip (ln : Nat) (line : List Char)
    (e : List Char × Bool × HareKind) (it : HareItem)
    (h : itemForEntry ln line e = .ok (some it)) :
    itemLineSpec ln line e it := by
  unfold itemForEntry at h
  split at h
  · cases h
  · rename_i p hp
    split at h
    · injection h with h'; cases h'
    · rename_i s hs
      split at h
      · cases h
      · rename_i j hj
        injection h with h'
        injection h' with h''
        subst h''
        refine ⟨rfl, rfl, rfl, rfl, rfl, ?_, p, s, hp, hs, rfl, Nat.le_add_left _ _,
          ?_, ?_⟩
        · have := findSub_some_take (firstWordTok s) (line.drop p.length) j hj
          rw [List.drop_drop, Nat.add_comm p.length j] at this
          exact this
        · rw [Nat.add_sub_cancel]
          exact hj
        · intro i2 h2
          rw [Nat.add_sub_cancel]
          exact findSub_min (firstWordTok s) (line.drop p.length) j hj i2 h2

theorem goEntries_roundtrip (ln : Nat) (line : List Char) :
    ∀ (L : List (List Char × Bool × HareKind)) (hs : List HareItem),
    goEntries ln line L = .ok hs → ∀ it ∈ hs,
    ∃ e, e ∈ L ∧ itemLineSpec ln line e it := by
  intro L
  induction L with
  | nil =>
    intro hs h it hit
    injection h with h'
    subst h'
    cases hit
  | cons e t ih =>
    intro hs h it hit
    unfold goEntries at h
    split at h
    · cases h
    · rename_i o ho
      split at h
      · cases h
      · rename_i rest hrest
        injection h with h'
        subst h'
        cases o with
        | none =>
          obtain ⟨e2, he2, hspec⟩ := ih rest hrest it hit
          exact ⟨e2, List.mem_cons_of_mem _ he2, hspec⟩
        | some it0 =>
          rcases List.mem_cons.mp hit with rfl | hmem
          · exact ⟨e, List.mem_cons_self e t, itemForEntry_roundtrip ln line e it ho⟩
          · obtain ⟨e2, he2, hspec⟩ := ih rest hrest it hmem
            exact ⟨e2, List.mem_cons_of_mem _ he2, hspec⟩

theorem goLines_roundtrip : ∀ (ls : List (List Char)) (n : Nat) (items : List HareItem),
    goLines n ls = .ok items → ∀ it ∈ items,
    ∃ jdx line, ls.get? jdx = some line ∧
      ∃ e, e ∈ declTable ∧ itemLineSpec (n + jdx) line e it := by
  intro ls
  induction ls with
  | nil =>
    intro n items h it hit
    injection h with h'
    subst h'
    cases hit
  | cons l t ih =>
    intro n items h it hit
    unfold goLines at h
    split at h
    · cases h
    · rename_i hs hhs
      split at h
      · cases h
      · rename_i rest hrest
        injection h with h'
        subst h'
        rcases List.mem_append.mp hit with hm1 | hm2
        · obtain ⟨e, he, hspec⟩ := goEntries_roundtrip n l declTable hs hhs it hm1
          exact ⟨0, l, rfl, e, he, hspec⟩
        · obtain ⟨jdx, line, hg, e, he, hspec⟩ := ih (n + 1) rest hrest it hm2
          refine ⟨jdx + 1, line, by simpa using hg, e, he, ?_⟩
          rw [show n + (jdx + 1) = (n + 1) + jdx by omega]
          exact hspec

/-- C8 (confirmed): for every Symbol the extractor produces, the substring
    of its line between the range's start and end columns equals the
    Symbol's name (round-trip), and the start column is the name's first
    occurrence in the line AFTER the matched table entry's effective prefix:
    it equals the prefix length plus the first index at which the name
    occurs in the remainder, and no smaller index after the prefix carries
    the name. -/
theorem parse_items_roundtrip (doc_lines : List (List Char)) (items : List HareItem)
    (h : parse_items doc_lines = .ok items) :
    ∀ it ∈ items,
      it.range.hi.line = it.range.lo.line ∧
      it.range.hi.col = it.range.lo.col + it.name.length ∧
      ∃ line, doc_lines.get? it.range.lo.line = some line ∧
        (line.drop it.range.lo.col).take (it.range.hi.col - it.range.lo.col) = it.name ∧
        ∃ e, e ∈ declTable ∧ it.kind = e.2.2 ∧ it.exported = e.2.1 ∧
          ∃ pfx s, effPat line e.1 = .ok pfx ∧ dropPre pfx line = some s ∧
            it.name = firstWordTok s ∧ pfx.length ≤ it.range.lo.col ∧
            findSub (line.drop pfx.length) it.name =
              some (it.range.lo.col - pfx.length) ∧
            ∀ i2, it.name.isPrefixOf ((line.drop pfx.length).drop i2) = true →
              it.range.lo.col - pfx.length ≤ i2 := by
  intro it hit
  obtain ⟨jdx, line, hg, e, he, hspec⟩ := goLines_roundtrip doc_lines 0 items h it hit
  obtain ⟨hl1, hl2, hcol, hkind, hexp, hsub, pfx, s, heff, hdp, hname, hple, hfs, hmin⟩ :=
    hspec
  have hjd : it.range.lo.line = jdx := by omega
  refine ⟨by omega, hcol, line, by rw [hjd]; exact hg, ?_,
    e, he, hkind, hexp, pfx, s, heff, hdp, hname, hple, hfs, hmin⟩
  rw [hcol]
  simpa using hsub

def itW : HareItem := ⟨.Fn, "foo".toList, ⟨⟨0, 3⟩, ⟨0, 6⟩⟩, false⟩

/-- C8 witness: on the line `"fn foo() = 0;"`, the produced symbol `foo` at
    columns [3,6) reads back out of the line, and column 3 is the first
    occurrence of `foo` after the matched `fn` prefix. -/
theorem parse_items_roundtrip_witness :
    itW.range.hi.line = itW.range.lo.line ∧
    itW.range.hi.col = itW.range.lo.col + itW.name.length ∧
    ∃ line, ["fn foo() = 0;".toList].get? itW.range.lo.line = some line ∧
      (line.drop itW.range.lo.col).take (itW.range.hi.col - itW.range.lo.col) =
        itW.name ∧
      ∃ e, e ∈ declTable ∧ itW.kind = e.2.2 ∧ itW.exported = e.2.1 ∧
        ∃ pfx s, effPat line e.1 = .ok pfx ∧ dropPre pfx line = some s ∧
          itW.name = firstWordTok s ∧ pfx.length ≤ itW.range.lo.col ∧
          findSub (line.drop pfx.length) itW.name =
            some (itW.range.lo.col - pfx.length) ∧
          ∀ i2, itW.name.isPrefixOf ((line.drop pfx.length).drop i2) = true →
            itW.range.lo.col - pfx.length ≤ i2 :=
  parse_items_roundtrip ["fn foo() = 0;".toList] [itW] rfl itW (by decide)

/- ------------------------------------------------------------------ -/
/- C10: the @symbol special case                                       -/
/- ------------------------------------------------------------------ -/

theorem effPat_error_no_rparen (line pfx : List Char) (i : Nat)
    (hat : findSub line atSymbolTok = some i)
    (hrp : findSub (line.drop i) [')'] = none) :
    effPat line pfx = .error () := by
  unfold effPat
  rw [hat]
  show (match findSub (line.drop i) [')'] with
        | none => Except.error ()
        | some rp =>
          if pfx.length + rp ≤ line.length then Except.ok (line.take (pfx.length + rp))
          else Except.error ()) = Except.error ()
  rw [hrp]

theorem itemForEntry_error_no_rparen (ln : Nat) (line : List Char)
    (e : List Char × Bool × HareKind) (i : Nat)
    (hat : findSub line atSymbolTok = some i)
    (hrp : findSub (line.drop i) [')'] = none) :
    itemForEntry ln line e = .error () := by
  unfold itemForEntry
  rw [effPat_error_no_rparen line e.1 i hat hrp]

theorem parseLine_error_no_rparen (ln : Nat) (line : List Char) (i : Nat)
    (hat : findSub line atSymbolTok = some i)
    (hrp : findSub (line.drop i) [')'] = none) :
    parseLine ln line = .error () := by
  unfold parseLine declTable goEntries
  rw [itemForEntry_error_no_rparen ln line _ i hat hrp]

theorem goLines_error_of_parseLine (ls : List (List Char)) : ∀ (n : Nat) (l : List Char),
    l ∈ ls → (∀ m, parseLine m l = .error ()) → goLines n ls = .error () := by
  induction ls with
  | nil => intro n l h; cases h
  | cons x t ih =>
    intro n l hmem hpe
    rcases List.mem_cons.mp hmem with rfl | hmt
    · unfold goLines
      rw [hpe n]
    · unfold goLines
      split
      · rfl
      · rw [ih (n + 1) l hmt hpe]

/-- On a line containing `"@symbol"` with a later `')'`, every table entry's
    prefix is replaced by the line's own slice of length
    `prefix.len() + rparen_pos`; the strip then always succeeds and the name
    is read from the text after that slice, regardless of the prefix's text. -/
theorem itemForEntry_symbol_slice (ln : Nat) (line : List Char)
    (e : List Char × Bool × HareKind) (i rp : Nat)
    (hat : findSub line atSymbolTok = some i)
    (hrp : findSub (line.drop i) [')'] = some rp)
    (hle : e.1.length + rp ≤ line.length) :
    ∃ j, itemForEntry ln line e = .ok (some
      ⟨e.2.2, firstWordTok (line.drop (e.1.length + rp)),
        ⟨⟨ln, j + (e.1.length + rp)⟩,
         ⟨ln, j + (e.1.length + rp) + (firstWordTok (line.drop (e.1.length + rp))).length⟩⟩,
        e.2.1⟩) := by
  have hK : (line.take (e.1.length + rp)).length = e.1.length + rp := by
    rw [List.length_take, Nat.min_eq_left hle]
  have heff : effPat line e.1 = .ok (line.take (e.1.length + rp)) := by
    unfold effPat
    rw [hat]
    show (match findSub (line.drop i) [')'] with
          | none => Except.error ()
          | some rp =>
            if e.1.length + rp ≤ line.length then Except.ok (line.take (e.1.length + rp))
            else Except.error ()) = _
    rw [hrp]
    show (if e.1.length + rp ≤ line.length then Except.ok (line.take (e.1.length + rp))
          else Except.error ()) = _
    rw [if_pos hle]
  have hstrip : dropPre (line.take (e.1.length + rp)) line =
      some (line.drop (e.1.length + rp)) := dropPre_take line _ hle
  obtain ⟨j, hj⟩ := findSub_isSome_of_occurs
    (firstWordTok (line.drop (e.1.length + rp))) (line.drop (e.1.length + rp))
    (firstWordTok_occurs _)
  refine ⟨j, ?_⟩
  unfold itemForEntry
  rw [heff]
  show (match dropPre (line.take (e.1.length + rp)) line with
        | none => (Except.ok none : Except Unit (Option HareItem))
        | some s =>
          match findSub (line.drop (line.take (e.1.length + rp)).length)
              (firstWordTok s) with
          | none => Except.error ()
          | some j =>
            Except.ok (some (⟨e.2.2, firstWordTok s,
              ⟨⟨ln, j + (line.take (e.1.length + rp)).length⟩,
               ⟨ln, j + (line.take (e.1.length + rp)).length +
                  (firstWordTok s).length⟩⟩, e.2.1⟩ : HareItem))) = _
  rw [hstrip, hK]
  show (match findSub (line.drop (e.1.length + rp))
          (firstWordTok (line.drop (e.1.length + rp))) with
        | none => (Except.error () : Except Unit (Option HareItem))
        | some j =>
          Except.ok (some (⟨e.2.2, firstWordTok (line.drop (e.1.length + rp)),
            ⟨⟨ln, j + (e.1.length + rp)⟩,
             ⟨ln, j + (e.1.length + rp) +
                (firstWordTok (line.drop (e.1.length + rp))).length⟩⟩, e.2.1⟩ : HareItem))) = _
  rw [hj]

/-- C10 counterexample: the line `"@symbol)"` contains `"@symbol"` followed
    by `')'`, yet the extractor does not proceed with a replaced prefix: the
    attempted slice `line[..prefix.len() + 7]` is out of bounds for every
    table prefix and extraction fails. -/
theorem parse_items_symbol_oob_counterexample :
    findSub "@symbol)".toList atSymbolTok = some 0 ∧
    findSub ("@symbol)".toList.drop 0) [')'] = some 7 ∧
    parse_items ["@symbol)".toList] = .error () :=
  ⟨rfl, rfl, rfl⟩

/-- C10 (amended): on a line containing `"@symbol"` with no `')'` at or
    after it, symbol extraction fails (the `unwrap` panic) instead of
    skipping the line; on a line with a `')'` at relative position `rp`,
    each table prefix is replaced by the slice `line[..prefix.len() + rp]`:
    when that slice is within the line, the entry matches unconditionally
    and the name is read after the slice (the prefix's own text is ignored),
    and when the slice end exceeds the line length, extraction fails
    (slice out of bounds) instead. -/
theorem parse_items_symbol_amended :
    (∀ (doc_lines : List (List Char)) (line : List Char) (i : Nat),
      line ∈ doc_lines → findSub line atSymbolTok = some i →
      findSub (line.drop i) [')'] = none →
      parse_items doc_lines = .error ()) ∧
    (∀ (ln : Nat) (line : List Char) (e : List Char × Bool × HareKind) (i rp : Nat),
      findSub line atSymbolTok = some i →
      findSub (line.drop i) [')'] = some rp →
      e.1.length + rp ≤ line.length →
      ∃ j, itemForEntry ln line e = .ok (some
        ⟨e.2.2, firstWordTok (line.drop (e.1.length + rp)),
          ⟨⟨ln, j + (e.1.length + rp)⟩,
           ⟨ln, j + (e.1.length + rp) +
              (firstWordTok (line.drop (e.1.length + rp))).length⟩⟩,
          e.2.1⟩)) ∧
    (∀ (ln : Nat) (line : List Char) (e : List Char × Bool × HareKind) (i rp : Nat),
      findSub line atSymbolTok = some i →
      findSub (line.drop i) [')'] = some rp →
      line.length < e.1.length + rp →
      itemForEntry ln line e = .error ()) := by
  refine ⟨?_, ?_, ?_⟩
  · intro doc_lines line i hmem hat hrp
    exact goLines_error_of_parseLine doc_lines 0 line hmem
      (fun m => parseLine_error_no_rparen m line i hat hrp)
  · intro ln line e i rp hat hrp hle
    exact itemForEntry_symbol_slice ln line e i rp hat hrp hle
  · intro ln line e i rp hat hrp hgt
    have heff : effPat line e.1 = .error () := by
      unfold effPat
      rw [hat]
      show (match findSub (line.drop i) [')'] with
            | none => Except.error ()
            | some rp =>
              if e.1.length + rp ≤ line.length then
                Except.ok (line.take (e.1.length + rp))
              else Except.error ()) = _
      rw [hrp]
      show (if e.1.length + rp ≤ line.length then Except.ok (line.take (e.1.length + rp))
            else Except.error ()) = _
      rw [if_neg (by omega)]
    unfold itemForEntry
    rw [heff]

/-- C10 witness: on `"@symbol x) fn foo"`, the bare `fn` entry (prefix
    length 2, `')'` at 9) matches through the replaced slice of length 11
    and reads the name `"fn"` from position 11 onward. -/
theorem parse_items_symbol_amended_witness :
    ∃ j, itemForEntry 0 "@symbol x) fn foo".toList ("fn".toList, false, HareKind.Fn) =
      .ok (some ⟨HareKind.Fn,
        firstWordTok ("@symbol x) fn foo".toList.drop ("fn".toList.length + 9)),
        ⟨⟨0, j + ("fn".toList.length + 9)⟩,
         ⟨0, j + ("fn".toList.length + 9) +
            (firstWordTok ("@symbol x) fn foo".toList.drop
              ("fn".toList.length + 9))).length⟩⟩,
        false⟩) :=
  parse_items_symbol_amended.2.1 0 "@symbol x) fn foo".toList
    ("fn".toList, false, HareKind.Fn) 0 9 (by decide) (by decide) (by decide)

/- ------------------------------------------------------------------ -/
/- C7: definition query location collection                            -/
/- ------------------------------------------------------------------ -/

def uriC7 : Uri := ["m".toList, "a.ha".toList]

def itmC7a : HareItem := ⟨.Fn, "foo".toList, ⟨⟨0, 3⟩, ⟨0, 6⟩⟩, false⟩

def itmC7b : HareItem := ⟨.Fn, "foo".toList, ⟨⟨1, 3⟩, ⟨1, 6⟩⟩, false⟩

def docC7 : Document :=
  ⟨["fn foo() = 1;".toList, "fn foo() = 2;".toList], [], [itmC7a, itmC7b]⟩

/-- C7 counterexample: a document with two distinct symbols matching the
    cursor identifier `foo` contributes only ONE location (the first match
    of `find_item`), so the query returns a single scalar result instead of
    a two-element list. -/
theorem find_definition_two_matches_counterexample :
    Document.new ["fn foo() = 1;".toList, "fn foo() = 2;".toList] = .ok docC7 ∧
    itmC7a ∈ docC7.items ∧ itmC7b ∈ docC7.items ∧ itmC7a ≠ itmC7b ∧
    itmC7a.name = "foo".toList ∧ itmC7b.name = "foo".toList ∧
    find_definition [(uriC7, docC7)] uriC7 0 3 =
      .ok (GotoDefRes.scalar (uriC7, itmC7a.range)) :=
  ⟨rfl, by decide, by decide, by decide, rfl, rfl, rfl⟩

theorem dispatchLocs_singleton (l : Loc) : dispatchLocs [l] = .scalar l := rfl

theorem dispatchLocs_of_length_ne_one (locs : List Loc) (h : locs.length ≠ 1) :
    dispatchLocs locs = .array locs := by
  match locs with
  | [] => rfl
  | [l] => exact absurd rfl h
  | a :: b :: t => rfl

/-- C7 (amended): the definition query collects AT MOST one location per
    candidate document — the first matching symbol found by `find_item` —
    even when a document contains several distinct matching symbols; every
    collected location is some candidate document's first match, and every
    candidate document with a match contributes its location.  The returned
    value is the dispatch of the full collected list: when exactly one
    location was collected, that very location is returned as the scalar
    result; otherwise the returned array is the full collected list itself,
    including the empty list. -/
theorem find_definition_amended :
    (∀ (docs : DocList) (ident : Ident) (m : List Char),
      (candidateLocs docs ident m).length ≤ (module_files docs m).length) ∧
    (∀ (docs : DocList) (ident : Ident) (m : List Char) (loc : Loc),
      loc ∈ candidateLocs docs ident m →
      ∃ p, p ∈ module_files docs m ∧
        ∃ it, find_item p.2.items ident = some it ∧ loc = (p.1, it.range)) ∧
    (∀ (docs : DocList) (ident : Ident) (m : List Char) (p : Uri × Document)
        (it : HareItem),
      p ∈ module_files docs m → find_item p.2.items ident = some it →
      (p.1, it.range) ∈ candidateLocs docs ident m) ∧
    (∀ (docs : DocList) (uri : Uri) (lineNo col : Nat) (res : GotoDefRes),
      find_definition docs uri lineNo col = .ok res →
      ∃ locs, res = dispatchLocs locs ∧
        (locs.length = 1 → ∃ l, locs = [l] ∧ res = GotoDefRes.scalar l) ∧
        (locs.length ≠ 1 → res = GotoDefRes.array locs) ∧
        (locs = [] ∨
          ∃ dm d l ident, module_from_uri uri = some dm ∧
            lookupA docs uri = some d ∧ d.lines.get? lineNo = some l ∧
            get_identifier l col = .ok ident ∧
            locs = candidateLocs docs ident (module_of_ident ident dm d.imports))) := by
  refine ⟨?_, ?_, ?_, ?_⟩
  · intro docs ident m
    exact List.length_filterMap_le _ _
  · intro docs ident m loc hmem
    obtain ⟨p, hp, hf⟩ := List.mem_filterMap.mp hmem
    obtain ⟨it, hit, heq⟩ := Option.map_eq_some'.mp hf
    exact ⟨p, hp, it, hit, heq.symm⟩
  · intro docs ident m p it hp hfind
    unfold candidateLocs
    refine List.mem_filterMap.mpr ⟨p, hp, ?_⟩
    rw [hfind]
    rfl
  · intro docs uri lineNo col res h
    unfold find_definition at h
    split at h
    · cases h
    · rename_i dm hdm
      split at h
      · injection h with h'
        refine ⟨[], h'.symm, ?_, ?_, Or.inl rfl⟩
        · intro h1
          exact absurd h1 (by decide)
        · intro _
          exact h'.symm
      · rename_i d hlk
        split at h
        · injection h with h'
          refine ⟨[], h'.symm, ?_, ?_, Or.inl rfl⟩
          · intro h1
            exact absurd h1 (by decide)
          · intro _
            exact h'.symm
        · rename_i l hline
          split at h
          · cases h
          · rename_i ident hid
            injection h with h'
            refine ⟨candidateLocs docs ident (module_of_ident ident dm d.imports),
              h'.symm, ?_, ?_, Or.inr ⟨dm, d, l, ident, hdm, hlk, hline, hid, rfl⟩⟩
            · intro h1
              obtain ⟨loc1, hloc1⟩ := List.length_eq_one.mp h1
              refine ⟨loc1, hloc1, ?_⟩
              rw [← h', hloc1]
              rfl
            · intro hne
              rw [← h']
              exact dispatchLocs_of_length_ne_one _ hne

/-- C7 witness: on the two-`foo` store the query collected exactly one
    location, and the scalar returned is that very collected location. -/
theorem find_definition_amended_witness :
    ∃ locs, GotoDefRes.scalar (uriC7, itmC7a.range) = dispatchLocs locs ∧
      (locs.length = 1 → ∃ l, locs = [l] ∧
        GotoDefRes.scalar (uriC7, itmC7a.range) = GotoDefRes.scalar l) ∧
      (locs.length ≠ 1 →
        GotoDefRes.scalar (uriC7, itmC7a.range) = GotoDefRes.array locs) ∧
      (locs = [] ∨
        ∃ dm d l ident, module_from_uri uriC7 = some dm ∧
          lookupA [(uriC7, docC7)] uriC7 = some d ∧ d.lines.get? 0 = some l ∧
          get_identifier l 3 = .ok ident ∧
          locs = candidateLocs [(uriC7, docC7)] ident
            (module_of_ident ident dm d.imports)) :=
  find_definition_amended.2.2.2 [(uriC7, docC7)] uriC7 0 3
    (GotoDefRes.scalar (uriC7, itmC7a.range)) rfl

/- ------------------------------------------------------------------ -/
/- C1: directory indexing                                              -/
/- ------------------------------------------------------------------ -/

mutual

/-- The (uri, document) pairs a single directory entry contributes, in walk
    order; depends only on the filesystem, not on the store. -/
def entryPairs (path : Uri) : FsEntry → Except Unit (List (Uri × Document))
  | .file name content =>
    if extOf name = some haTok then
      match Document.new content with
      | .ok d => .ok [(path ++ [name], d)]
      | .error err => .error err
    else .ok []
  | .dir name entries =>
    if plusTok.isPrefixOf name then dirPairs (path ++ [name]) entries
    else .ok []

/-- The (uri, document) pairs a directory walk inserts, in walk order. -/
def dirPairs (path : Uri) : List FsEntry → Except Unit (List (Uri × Document))
  | [] => .ok []
  | e :: t =>
    match entryPairs path e with
    | .ok ps =>
      match dirPairs path t with
      | .ok qs => .ok (ps ++ qs)
      | .error err => .error err
    | .error err => .error err

end

def applyPairsD (docs : DocList) (ps : List (Uri × Document)) : DocList :=
  ps.foldl (fun m kv => insertD kv.1 kv.2 m) docs

/-- The last binding of a key in a pair list (later insertions win). -/
def lookupLast : List (Uri × Document) → Uri → Option Document
  | [], _ => none
  | kv :: t, k =>
    match lookupLast t k with
    | some v => some v
    | none => if kv.1 = k then some kv.2 else none

theorem find?_cons_true {α : Type} (p : α → Bool) (a : α) (l : List α) (h : p a = true) :
    (a :: l).find? p = some a := by
  simp [List.find?, h]

theorem find?_cons_false {α : Type} (p : α → Bool) (a : α) (l : List α) (h : p a = false) :
    (a :: l).find? p = l.find? p := by
  simp [List.find?, h]

theorem filter_cons_true {α : Type} (p : α → Bool) (a : α) (l : List α) (h : p a = true) :
    (a :: l).filter p = a :: l.filter p := by
  simp [List.filter, h]

theorem filter_cons_false {α : Type} (p : α → Bool) (a : α) (l : List α) (h : p a = false) :
    (a :: l).filter p = l.filter p := by
  simp [List.filter, h]

theorem find?_filter_ne (u k : Uri) (hne : k ≠ u) (m : DocList) :
    (m.filter (fun p => !(decide (p.1 = u)))).find? (fun p => decide (p.1 = k)) =
      m.find? (fun p => decide (p.1 = k)) := by
  induction m with
  | nil => rfl
  | cons x t ih =>
    by_cases hx : x.1 = u
    · rw [filter_cons_false _ x t (by simp [hx])]
      rw [ih]
      rw [find?_cons_false _ x t (by rw [hx]; exact decide_eq_false (fun h => hne h.symm))]
    · rw [filter_cons_true _ x t (by simp [hx])]
      by_cases hk : x.1 = k
      · rw [find?_cons_true _ x _ (by simp [hk]), find?_cons_true _ x t (by simp [hk])]
      · rw [find?_cons_false _ x _ (by simp [hk]), find?_cons_false _ x t (by simp [hk])]
        exact ih

theorem lookupA_insertD (u : Uri) (d : Document) (m : DocList) (k : Uri) :
    lookupA (insertD u d m) k = if k = u then some d else lookupA m k := by
  unfold lookupA insertD
  by_cases hk : k = u
  · subst hk
    rw [find?_cons_true _ (k, d) _ (by simp)]
    rw [if_pos rfl]
    rfl
  · rw [find?_cons_false _ (u, d) _ (by exact decide_eq_false (fun h => hk h.symm))]
    rw [if_neg hk]
    rw [find?_filter_ne u k hk m]

theorem lookupA_applyPairsD (m : DocList) (ps : List (Uri × Document)) (k : Uri) :
    lookupA (applyPairsD m ps) k =
      match lookupLast ps k with
      | some v => some v
      | none => lookupA m k := by
  induction ps generalizing m with
  | nil => rfl
  | cons kv t ih =>
    have hstep : lookupA (applyPairsD m (kv :: t)) k =
        lookupA (applyPairsD (insertD kv.1 kv.2 m) t) k := rfl
    rw [hstep, ih]
    cases hll : lookupLast t k with
    | some v =>
      show some v = _
      unfold lookupLast
      rw [hll]
    | none =>
      show lookupA (insertD kv.1 kv.2 m) k = _
      rw [lookupA_insertD]
      unfold lookupLast
      rw [hll]
      by_cases hk : kv.1 = k
      · rw [if_pos hk.symm, if_pos hk]
      · rw [if_neg (fun h => hk h.symm), if_neg hk]

theorem applyPairsD_append (docs : DocList) (ps qs : List (Uri × Document)) :
    applyPairsD docs (ps ++ qs) = applyPairsD (applyPairsD docs ps) qs :=
  List.foldl_append _ _ _ _

mutual

theorem addEntry_eq_pairs (docs : DocList) (path : Uri) (e : FsEntry) :
    addEntry docs path e = (entryPairs path e).map (fun ps => applyPairsD docs ps) := by
  cases e with
  | file name content =>
    unfold addEntry entryPairs
    by_cases hx : extOf name = some haTok
    · rw [if_pos hx, if_pos hx]
      cases Document.new content <;> rfl
    · rw [if_neg hx, if_neg hx]
      rfl
  | dir name entries =>
    unfold addEntry entryPairs
    by_cases hp : plusTok.isPrefixOf name = true
    · rw [if_pos hp, if_pos hp]
      exact addDir_eq_pairs docs (path ++ [name]) entries
    · rw [if_neg hp, if_neg hp]
      rfl

theorem addDir_eq_pairs (docs : DocList) (path : Uri) (es : List FsEntry) :
    addDir docs path es = (dirPairs path es).map (fun ps => applyPairsD docs ps) := by
  cases es with
  | nil => rfl
  | cons e t =>
    unfold addDir dirPairs
    rw [addEntry_eq_pairs docs path e]
    cases hep : entryPairs path e with
    | error err => rfl
    | ok ps =>
      show addDir (applyPairsD docs ps) path t = _
      rw [addDir_eq_pairs (applyPairsD docs ps) path t]
      cases hdp : dirPairs path t with
      | error err => rfl
      | ok qs =>
        show Except.ok (applyPairsD (applyPairsD docs ps) qs) =
          Except.ok (applyPairsD docs (ps ++ qs))
        rw [applyPairsD_append]

end

def docX : Document := ⟨["x".toList], [], []⟩

def docY : Document := ⟨["y".toList], [], []⟩

def storeC1 : DocList := [(["a.ha".toList], docY)]

/-- C1 counterexample: a source file whose identity is already present in
    the store (bound to `docY`) is re-opened, re-parsed and REPLACED by the
    fresh parse of its on-disk content (`docX`) — it is not left untouched. -/
theorem addDocs_reparse_counterexample :
    addDir storeC1 [] [FsEntry.file "a.ha".toList ["x".toList]] =
      .ok [(["a.ha".toList], docX)] ∧
    lookupA storeC1 ["a.ha".toList] = some docY ∧
    lookupA [(["a.ha".toList], docX)] ["a.ha".toList] = some docX ∧
    docX ≠ docY :=
  ⟨rfl, rfl, rfl, by decide⟩

/-- C1 (amended): the Directory Indexer re-opens, re-parses and replaces the
    stored Document of every discovered source file, whether or not its
    identity is already present; since the inserted Documents depend only on
    the on-disk contents, indexing the same directory twice still leaves the
    store extensionally equal to indexing it once (idempotence). -/
theorem addDir_idempotent (docs : DocList) (path : Uri) (es : List FsEntry)
    (docs1 : DocList) (h : addDir docs path es = .ok docs1) :
    ∃ docs2, addDir docs1 path es = .ok docs2 ∧
      ∀ u, lookupA docs2 u = lookupA docs1 u := by
  rw [addDir_eq_pairs] at h
  cases hdp : dirPairs path es with
  | error err => rw [hdp] at h; cases h
  | ok ps =>
    rw [hdp] at h
    injection h with h'
    subst h'
    refine ⟨applyPairsD (applyPairsD docs ps) ps, ?_, ?_⟩
    · rw [addDir_eq_pairs, hdp]
      rfl
    · intro u
      rw [lookupA_applyPairsD (applyPairsD docs ps) ps u, lookupA_applyPairsD docs ps u]
      cases hll : lookupLast ps u with
      | some v => rfl
      | none => rfl

/-- C1 witness: re-indexing the directory containing `a.ha` over the store
    that already holds its parse yields a store with the same bindings. -/
theorem addDir_idempotent_witness :
    ∃ docs2, addDir [(["a.ha".toList], docX)] []
        [FsEntry.file "a.ha".toList ["x".toList]] = .ok docs2 ∧
      ∀ u, lookupA docs2 u = lookupA [(["a.ha".toList], docX)] u :=
  addDir_idempotent storeC1 [] [FsEntry.file "a.ha".toList ["x".toList]]
    [(["a.ha".toList], docX)] rfl
